import Mathlib

/-!
Verification of the eigenvector-eigenvalue identity reconstruction code (E2.py).

The source computes, for a Hermitian matrix `H`, the squared magnitudes of all
eigenvector components from eigenvalues alone, in three variants (`eig_sq`,
`eig_sq_perf`, `eig_sq_vect`), compares them against a direct
eigendecomposition (`eig_sq_np`, `compare`), and runs a sensitivity sweep.

Shallow embedding conventions:
* An n×n complex matrix is a total function `ℕ → ℕ → ℂ` together with an
  explicit size `n`; entries at indices ≥ n are irrelevant (out-of-range
  entries of result matrices are 0, mirroring `np.zeros` initialisation).
* The external eigenvalue primitive `np.linalg.eigvalsh` is an abstract
  parameter `ev : EigF` (size, matrix ↦ real spectrum); the eigenvector part
  of `np.linalg.eigh` is an abstract parameter `evec : EigVF`.  The code
  treats both as black-box ground truth, so theorems quantify over them.
* Arithmetic is exact real/complex arithmetic (the idealised semantics of the
  floating-point source).
-/

namespace E2

noncomputable section

/-- An n×n complex matrix, by total functions; the size is carried separately. -/
abbrev Mat : Type := ℕ → ℕ → ℂ

/-- An n×n real matrix (the result matrices are real `np.zeros((n,n))` arrays). -/
abbrev RMat : Type := ℕ → ℕ → ℝ

/-- The external eigenvalue primitive `np.linalg.eigvalsh`: given the size and
the matrix, returns the (ascending) real spectrum as a function on indices. -/
abbrev EigF : Type := ℕ → Mat → (ℕ → ℝ)

/-- The eigenvector part of the external primitive `np.linalg.eigh`: column c
of the returned matrix is the eigenvector paired with eigenvalue c. -/
abbrev EigVF : Type := ℕ → Mat → Mat

/-- Embedding of `np.delete(np.delete(H, j, 0), j, 1)` for an in-range index
`j`: entry (a, b) of the minor is entry (a or a+1, b or b+1) of `H`,
skipping row and column `j`. -/
def minorM (H : Mat) (j : ℕ) : Mat :=
  fun a b => H (if a < j then a else a + 1) (if b < j then b else b + 1)

/-- Embedding of `vij_sq(H, i, j)` from E2.py lines 9-34: the squared norm of
element `j` of eigenvector `i`, computed from the spectrum of `H` and of its
j-th minor.  The numerator loop over `range(n-1)` and the denominator loop
over `range(n)` skipping `k == i` become products. -/
def vij_sq (ev : EigF) (n : ℕ) (H : Mat) (i j : ℕ) : ℝ :=
  let eigenvalues : ℕ → ℝ := ev n H
  let Mj : Mat := minorM H j
  let minor_eigenvalues : ℕ → ℝ := ev (n - 1) Mj
  let numerator : ℝ := ∏ k ∈ Finset.range (n - 1), (eigenvalues i - minor_eigenvalues k)
  let denominator : ℝ := ∏ k ∈ (Finset.range n).erase i, (eigenvalues i - eigenvalues k)
  numerator / denominator

/-- Embedding of `eig_sq(H)` from E2.py lines 37-46: an n×n real matrix with
`res[i, j] = vij_sq(H, j, i)`; entries outside the n×n range are the
`np.zeros` fill 0. -/
def eig_sq (ev : EigF) (n : ℕ) (H : Mat) : RMat :=
  fun i j => if i < n ∧ j < n then vij_sq ev n H j i else 0

/-- Embedding of `vij_sq_perf(H, i, j)` from E2.py lines 50-70: same quantity
as `vij_sq`, with the eigenvalue `eigenvalues[i]` bound once and the products
expressed over comprehensions (`reduce` of a product over `range(n-1)`, and
over `[k for k in range(n) if k != i]`). -/
def vij_sq_perf (ev : EigF) (n : ℕ) (H : Mat) (i j : ℕ) : ℝ :=
  let eigenvalues : ℕ → ℝ := ev n H
  let Mj : Mat := minorM H j
  let minor_eigenvalues : ℕ → ℝ := ev (n - 1) Mj
  let eigenvaluei : ℝ := eigenvalues i
  let numerator : ℝ := ∏ k ∈ Finset.range (n - 1), (eigenvaluei - minor_eigenvalues k)
  let denominator : ℝ :=
    ∏ k ∈ (Finset.range n).filter (fun k => k ≠ i), (eigenvaluei - eigenvalues k)
  numerator / denominator

/-- Embedding of `eig_sq_perf(H)` from E2.py lines 73-82: an n×n real matrix
with `res[i, j] = vij_sq_perf(H, j, i)`. -/
def eig_sq_perf (ev : EigF) (n : ℕ) (H : Mat) : RMat :=
  fun i j => if i < n ∧ j < n then vij_sq_perf ev n H j i else 0

/-- Embedding of `np.delete(v, i)` on a length-n vector: entry k of the result
is entry k (below i) or k+1 (from i on) of `v`. -/
def deleteAt (v : ℕ → ℝ) (i : ℕ) : ℕ → ℝ :=
  fun k => if k < i then v k else v (k + 1)

/-- Embedding of `eig_sq_vect(H)` from E2.py lines 87-111: the batched
variant.  `minors[m]` is the m-th minor, `eig_matrix[m]` is the spectrum with
entry m deleted, `minor_eigvals[m]` the m-th minor's spectrum (the batched
`eigvalsh` call equals one call per slice), `numerator[i][m]` the row-i
products over minor spectra, `denominator[i]` the product over
`eigvals[i] - eig_matrix[i]`; the returned matrix is
`numerator.T / denominator` broadcast along rows. -/
def eig_sq_vect (ev : EigF) (n : ℕ) (H : Mat) : RMat :=
  fun r c =>
    if r < n ∧ c < n then
      let eigvals : ℕ → ℝ := ev n H
      let minor_eigvals : ℕ → ℕ → ℝ := fun m => ev (n - 1) (minorM H m)
      let eig_matrix : ℕ → ℕ → ℝ := fun m => deleteAt eigvals m
      let numerator : ℕ → ℕ → ℝ :=
        fun i m => ∏ k ∈ Finset.range (n - 1), (eigvals i - minor_eigvals m k)
      let denominator : ℕ → ℝ :=
        fun i => ∏ k ∈ Finset.range (n - 1), (eigvals i - eig_matrix i k)
      numerator c r / denominator c
    else 0

/-- Embedding of `eig_sq_np(H)` from E2.py lines 116-119: entrywise
`abs(eigenvectors)**2` of the direct eigendecomposition. -/
def eig_sq_np (evec : EigVF) (n : ℕ) (H : Mat) : RMat :=
  fun r c => Complex.abs (evec n H r c) ^ 2

/-- Embedding of `compare(H, mode)` from E2.py lines 125-140: selects the
variant by `mode` (0, 1, 2), raising `IndexError` (modelled as `none`)
otherwise, and returns the elementwise proposition
`abs(res - eig_sq_np(H)) < 1e-12`. -/
def compare (ev : EigF) (evec : EigVF) (n : ℕ) (H : Mat) (mode : ℤ) :
    Option (ℕ → ℕ → Prop) :=
  let tol : ℝ := 1e-12
  let res? : Option RMat :=
    if mode = 0 then some (eig_sq ev n H)
    else if mode = 1 then some (eig_sq_perf ev n H)
    else if mode = 2 then some (eig_sq_vect ev n H)
    else none
  res?.map (fun res => fun r c => |res r c - eig_sq_np evec n H r c| < tol)

/-- Embedding of `compare(H)` called without an explicit mode: Python's
default argument is `mode=0`. -/
def compareDefault (ev : EigF) (evec : EigVF) (n : ℕ) (H : Mat) :
    Option (ℕ → ℕ → Prop) :=
  compare ev evec n H 0

/-- Embedding of the matrix generator at E2.py lines 154-155 and 178-179:
`H = 0.5 * (A + A.T)` for a random complex draw `A`. -/
def genH (A : Mat) : Mat :=
  fun r c => (1 / 2 : ℂ) * (A r c + A c r)

/-- Predicate: `M` is an n×n Hermitian matrix, i.e. every in-range entry
equals the complex conjugate of its transposed entry. -/
def IsHermitianN (n : ℕ) (M : Mat) : Prop :=
  ∀ r c, r < n → c < n → M r c = starRingEnd ℂ (M c r)

/-- Index normalisation of `np.delete(arr, j, axis)` on an axis of length
`len` for an integer scalar `j`: in-range nonnegative indices are kept,
indices in `[-len, 0)` wrap to `len + j` (Python negative indexing), anything
else raises `IndexError` (`none`). -/
def npDeleteIdx (len : ℕ) (j : ℤ) : Option ℕ :=
  if 0 ≤ j ∧ j < (len : ℤ) then some j.toNat
  else if -(len : ℤ) ≤ j ∧ j < 0 then some (j + len).toNat
  else none

/-- The minor-extraction operation `np.delete(np.delete(H, j, 0), j, 1)` on an
n×n matrix with a general integer index `j`: produces the size (n-1) and the
minor matrix, or `none` when numpy raises `IndexError`. -/
def minorZ (n : ℕ) (H : Mat) (j : ℤ) : Option (ℕ × Mat) :=
  (npDeleteIdx n j).map (fun j0 => (n - 1, minorM H j0))

/-- Frobenius norm `LA.norm` of an n×n real matrix. -/
def frobNorm (n : ℕ) (M : RMat) : ℝ :=
  Real.sqrt (∑ r ∈ Finset.range n, ∑ c ∈ Finset.range n, (M r c) ^ 2)

/-- One relative-percentage error of the sweep:
`100 * (norm(v) - norm(ref)) / norm(v)`. -/
def fpe (n : ℕ) (v ref : RMat) : ℝ :=
  100 * (frobNorm n v - frobNorm n ref) / frobNorm n v

/-- Lower bound of the sensitivity sweep (E2.py line 171). -/
def nmin : ℕ := 2

/-- Upper bound of the sensitivity sweep (E2.py line 172). -/
def nmax : ℕ := 50

/-- The sweep's basic-variant error series (E2.py lines 173-189): slot
`i - nmin` of a length `nmax - nmin + 1` array holds the `fpe` of `eig_sq`
against `eig_sq_np` on the symmetrised random draw of size `i = p + nmin`.
`draw n` is the raw random complex matrix used at size n. -/
def fpe_basic_array (ev : EigF) (evec : EigVF) (draw : ℕ → Mat) : List ℝ :=
  (List.range (nmax - nmin + 1)).map (fun p =>
    let n := p + nmin
    let H := genH (draw n)
    fpe n (eig_sq ev n H) (eig_sq_np evec n H))

/-- The sweep's performant-variant error series; see `fpe_basic_array`. -/
def fpe_perf_array (ev : EigF) (evec : EigVF) (draw : ℕ → Mat) : List ℝ :=
  (List.range (nmax - nmin + 1)).map (fun p =>
    let n := p + nmin
    let H := genH (draw n)
    fpe n (eig_sq_perf ev n H) (eig_sq_np evec n H))

/-- The sweep's vectorized-variant error series; see `fpe_basic_array`. -/
def fpe_vect_array (ev : EigF) (evec : EigVF) (draw : ℕ → Mat) : List ℝ :=
  (List.range (nmax - nmin + 1)).map (fun p =>
    let n := p + nmin
    let H := genH (draw n)
    fpe n (eig_sq_vect ev n H) (eig_sq_np evec n H))

/-- The interlacing identity value from the spec (section 4.2), stated in the
spec's orientation: for the matrix entry (row, col), the eigenvector index is
`col` and the deleted row/column is `row`:
`[Π_k (λ_col − μ_k)] / [Π_{k ≠ col} (λ_col − λ_k)]`, with `λ = ev n H` and
`μ = ev (n-1) (minor of H at row)`. -/
def specFormula (ev : EigF) (n : ℕ) (H : Mat) (row col : ℕ) : ℝ :=
  (∏ k ∈ Finset.range (n - 1), (ev n H col - ev (n - 1) (minorM H row) k)) /
    (∏ k ∈ (Finset.range n).erase col, (ev n H col - ev n H k))

/-! Concrete instances used to instantiate the abstract external primitives in
witness statements. -/

/-- A concrete eigenvalue oracle: spectrum k ↦ k, independent of the matrix. -/
def ev0 : EigF := fun _ _ k => (k : ℝ)

/-- A concrete eigenvector oracle returning the zero matrix. -/
def evec0 : EigVF := fun _ _ _ _ => 0

/-- The zero matrix, a concrete Hermitian input. -/
def H0 : Mat := fun _ _ => 0

/-- A concrete family of random draws for the sweep. -/
def draw0 : ℕ → Mat := fun _ => H0

lemma H0_herm : IsHermitianN 2 H0 := by
  intro r c _ _
  simp [H0]

/-! Structural lemmas: each variant's entries equal the spec formula. -/

/-- Reindexing a product over `range (n-1)` along the skip-c embedding gives
the product over `range n` minus c. -/
lemma prod_range_skip (f : ℕ → ℝ) (n c : ℕ) (hc : c < n) :
    (∏ k ∈ Finset.range (n - 1), f (if k < c then k else k + 1)) =
      ∏ k ∈ (Finset.range n).erase c, f k := by
  refine Finset.prod_nbij' (fun k => if k < c then k else k + 1)
    (fun m => if m < c then m else m - 1) ?_ ?_ ?_ ?_ ?_
  · intro a ha
    simp only [Finset.mem_range] at ha
    simp only [Finset.mem_erase, Finset.mem_range]
    split <;> omega
  · intro b hb
    simp only [Finset.mem_erase, Finset.mem_range] at hb
    simp only [Finset.mem_range]
    split <;> omega
  · intro a ha
    simp only [Finset.mem_range] at ha
    dsimp only
    split <;> (try split) <;> omega
  · intro b hb
    simp only [Finset.mem_erase, Finset.mem_range] at hb
    dsimp only
    split <;> (try split) <;> omega
  · intro a _
    rfl

lemma eig_sq_eq_formula (ev : EigF) (n : ℕ) (H : Mat) (r c : ℕ)
    (hr : r < n) (hc : c < n) :
    eig_sq ev n H r c = specFormula ev n H r c := by
  simp [eig_sq, vij_sq, specFormula, hr, hc]

lemma eig_sq_perf_eq_formula (ev : EigF) (n : ℕ) (H : Mat) (r c : ℕ)
    (hr : r < n) (hc : c < n) :
    eig_sq_perf ev n H r c = specFormula ev n H r c := by
  simp only [eig_sq_perf, vij_sq_perf, specFormula, if_pos (And.intro hr hc)]
  rw [Finset.filter_ne']

lemma eig_sq_vect_eq_formula (ev : EigF) (n : ℕ) (H : Mat) (r c : ℕ)
    (hr : r < n) (hc : c < n) :
    eig_sq_vect ev n H r c = specFormula ev n H r c := by
  simp only [eig_sq_vect, specFormula, if_pos (And.intro hr hc)]
  congr 1
  calc ∏ k ∈ Finset.range (n - 1), (ev n H c - deleteAt (ev n H) c k)
      = ∏ k ∈ Finset.range (n - 1),
          (fun m => ev n H c - ev n H m) (if k < c then k else k + 1) := by
        refine Finset.prod_congr rfl (fun k _ => ?_)
        simp only [deleteAt]
        split <;> rfl
    _ = ∏ k ∈ (Finset.range n).erase c, (ev n H c - ev n H k) :=
        prod_range_skip (fun m => ev n H c - ev n H m) n c hc

/-- C1: for every n×n Hermitian matrix H (n ≥ 2), every reconstructor variant
returns a matrix whose (row, col) entry equals the interlacing identity value
for eigenvector col and component row: the product over the n-1 eigenvalues of
the minor obtained by deleting row/column `row` of (λ_col − μ_k), divided by
the product over k ≠ col of (λ_col − λ_k), with the spectra given by the
external eigenvalue primitive. -/
theorem C1_variants_compute_identity (ev : EigF) (n : ℕ) (H : Mat)
    (hH : IsHermitianN n H) (hn : 2 ≤ n) (row col : ℕ)
    (hrow : row < n) (hcol : col < n) :
    eig_sq ev n H row col = specFormula ev n H row col ∧
    eig_sq_perf ev n H row col = specFormula ev n H row col ∧
    eig_sq_vect ev n H row col = specFormula ev n H row col :=
  ⟨eig_sq_eq_formula ev n H row col hrow hcol,
   eig_sq_perf_eq_formula ev n H row col hrow hcol,
   eig_sq_vect_eq_formula ev n H row col hrow hcol⟩

theorem C1_witness :
    IsHermitianN 2 H0 ∧ 2 ≤ 2 ∧ (0:ℕ) < 2 ∧ (1:ℕ) < 2 ∧
    (eig_sq ev0 2 H0 0 1 = specFormula ev0 2 H0 0 1 ∧
     eig_sq_perf ev0 2 H0 0 1 = specFormula ev0 2 H0 0 1 ∧
     eig_sq_vect ev0 2 H0 0 1 = specFormula ev0 2 H0 0 1) :=
  ⟨H0_herm, by norm_num, by norm_num, by norm_num,
   C1_variants_compute_identity ev0 2 H0 H0_herm (by norm_num) 0 1
     (by norm_num) (by norm_num)⟩

/-- C2: for every n×n Hermitian matrix H (n ≥ 2), the three reconstructor
variants produce entrywise-identical result matrices, exactly, in the exact
arithmetic of the embedding (hence within any floating-point tolerance). -/
theorem C2_variants_entrywise_equal (ev : EigF) (n : ℕ) (H : Mat)
    (hH : IsHermitianN n H) (hn : 2 ≤ n) (r c : ℕ) :
    eig_sq_perf ev n H r c = eig_sq ev n H r c ∧
    eig_sq_vect ev n H r c = eig_sq ev n H r c := by
  by_cases h : r < n ∧ c < n
  · obtain ⟨hr, hc⟩ := h
    rw [eig_sq_perf_eq_formula ev n H r c hr hc,
      eig_sq_vect_eq_formula ev n H r c hr hc,
      eig_sq_eq_formula ev n H r c hr hc]
    exact ⟨rfl, rfl⟩
  · constructor <;> simp [eig_sq, eig_sq_perf, eig_sq_vect, h]

theorem C2_witness :
    IsHermitianN 2 H0 ∧ 2 ≤ 2 ∧
    (eig_sq_perf ev0 2 H0 1 0 = eig_sq ev0 2 H0 1 0 ∧
     eig_sq_vect ev0 2 H0 1 0 = eig_sq ev0 2 H0 1 0) :=
  ⟨H0_herm, by norm_num,
   C2_variants_entrywise_equal ev0 2 H0 H0_herm (by norm_num) 1 0⟩

/-- C5: for every Hermitian matrix and every valid variant selector, `compare`
returns the elementwise matrix whose (r, c) entry holds exactly when the
absolute difference between the selected variant's entry and the reference
|eigenvector|² entry is strictly below 1e-12. -/
theorem C5_compare_matrix (ev : EigF) (evec : EigVF) (n : ℕ) (H : Mat)
    (hH : IsHermitianN n H) (mode : ℤ) :
    (mode = 0 → compare ev evec n H mode =
      some (fun r c => |eig_sq ev n H r c - eig_sq_np evec n H r c| < (1e-12 : ℝ))) ∧
    (mode = 1 → compare ev evec n H mode =
      some (fun r c => |eig_sq_perf ev n H r c - eig_sq_np evec n H r c| < (1e-12 : ℝ))) ∧
    (mode = 2 → compare ev evec n H mode =
      some (fun r c => |eig_sq_vect ev n H r c - eig_sq_np evec n H r c| < (1e-12 : ℝ))) := by
  refine ⟨?_, ?_, ?_⟩ <;> rintro rfl <;> rfl

theorem C5_witness :
    IsHermitianN 2 H0 ∧
    compare ev0 evec0 2 H0 1 =
      some (fun r c => |eig_sq_perf ev0 2 H0 r c - eig_sq_np evec0 2 H0 r c| < (1e-12 : ℝ)) :=
  ⟨H0_herm, (C5_compare_matrix ev0 evec0 2 H0 H0_herm 1).2.1 rfl⟩

/-- C6: for every Hermitian matrix, `compare` fails with an invalid-argument
error (returns no result) if and only if the selector names none of the three
reconstructors, i.e. is not 0, 1 or 2. -/
theorem C6_compare_invalid_mode (ev : EigF) (evec : EigVF) (n : ℕ) (H : Mat)
    (hH : IsHermitianN n H) (mode : ℤ) :
    compare ev evec n H mode = none ↔ ¬(mode = 0 ∨ mode = 1 ∨ mode = 2) := by
  simp only [compare]
  split_ifs with h0 h1 h2 <;> simp_all

theorem C6_witness :
    IsHermitianN 2 H0 ∧
    (compare ev0 evec0 2 H0 5 = none ↔ ¬((5:ℤ) = 0 ∨ (5:ℤ) = 1 ∨ (5:ℤ) = 2)) :=
  ⟨H0_herm, C6_compare_invalid_mode ev0 evec0 2 H0 H0_herm 5⟩

/-- C10: `compare` called without an explicit selector defaults to mode 0,
the Scalar variant `eig_sq`. -/
theorem C10_default_mode_is_scalar (ev : EigF) (evec : EigVF) (n : ℕ) (H : Mat)
    (hH : IsHermitianN n H) :
    compareDefault ev evec n H = compare ev evec n H 0 ∧
    compare ev evec n H 0 =
      some (fun r c => |eig_sq ev n H r c - eig_sq_np evec n H r c| < (1e-12 : ℝ)) :=
  ⟨rfl, rfl⟩

theorem C10_witness :
    IsHermitianN 2 H0 ∧
    (compareDefault ev0 evec0 2 H0 = compare ev0 evec0 2 H0 0 ∧
     compare ev0 evec0 2 H0 0 =
       some (fun r c => |eig_sq ev0 2 H0 r c - eig_sq_np evec0 2 H0 r c| < (1e-12 : ℝ))) :=
  ⟨H0_herm, C10_default_mode_is_scalar ev0 evec0 2 H0 H0_herm⟩

/-- A concrete random draw exhibiting the generator bug: a single off-diagonal
entry with nonzero imaginary part 1/2 (a value `np.random.rand` can produce). -/
def A0 : Mat := fun r c => if r = 0 ∧ c = 1 then Complex.I / 2 else 0

/-- C3: the generator symmetrises with the plain transpose,
`H = 0.5 * (H + H.T)`, not the conjugate transpose, so on a complex draw it
produces a matrix that is not Hermitian, contradicting the claim (and the
code's own comment "Generate a random Hermitian matrix"). -/
theorem C3_generator_not_hermitian : ¬ IsHermitianN 2 (genH A0) := by
  intro h
  have h01 := h 0 1 (by norm_num) (by norm_num)
  simp only [genH, A0] at h01
  norm_num [Complex.ext_iff, Complex.div_im, Complex.div_re,
    Complex.normSq_apply] at h01

/-- C7 (amended): the minor-extraction operation used by the reconstructors is
side-effect free; for j ∈ [0, n) it returns the (n-1)×(n-1) minor; it fails
with an out-of-range error exactly when j ≥ n or j < -n; and for j in [-n, 0)
it does not fail but wraps, deleting row/column n + j. -/
theorem C7_minor_extraction (n : ℕ) (H : Mat) (hn : 2 ≤ n) (j : ℤ) :
    (minorZ n H j = none ↔ (j < -(n : ℤ) ∨ (n : ℤ) ≤ j)) ∧
    (∀ j0 : ℕ, j0 < n → minorZ n H (j0 : ℤ) = some (n - 1, minorM H j0)) ∧
    (-(n : ℤ) ≤ j → j < 0 → minorZ n H j = some (n - 1, minorM H (j + n).toNat)) := by
  refine ⟨?_, ?_, ?_⟩
  · unfold minorZ npDeleteIdx
    split_ifs with h1 h2 <;> simp <;> omega
  · intro j0 hj0
    unfold minorZ npDeleteIdx
    rw [if_pos]
    · simp
    · constructor
      · exact Int.natCast_nonneg j0
      · exact_mod_cast hj0
  · intro h1 h2
    unfold minorZ npDeleteIdx
    rw [if_neg, if_pos]
    · simp
    · exact ⟨h1, h2⟩
    · intro hcon
      omega

theorem C7_witness :
    (2:ℕ) ≤ 2 ∧
    ((minorZ 2 H0 5 = none ↔ ((5:ℤ) < -(2 : ℤ) ∨ (2 : ℤ) ≤ 5)) ∧
     (∀ j0 : ℕ, j0 < 2 → minorZ 2 H0 (j0 : ℤ) = some (1, minorM H0 j0)) ∧
     (-(2 : ℤ) ≤ 5 → (5:ℤ) < 0 → minorZ 2 H0 5 = some (1, minorM H0 ((5:ℤ) + 2).toNat))) :=
  ⟨by norm_num, C7_minor_extraction 2 H0 (by norm_num) 5⟩

/-- C7 counterexample: the claim says minor extraction fails for every index
outside [0, n), including every negative one; but at n = 2, j = -1 numpy's
delete succeeds, wrapping to delete the last row/column. -/
theorem C7_counterexample :
    minorZ 2 H0 (-1) ≠ none ∧ minorZ 2 H0 (-1) = some (1, minorM H0 1) := by
  have h : minorZ 2 H0 (-1) = some (1, minorM H0 1) := by
    norm_num [minorZ, npDeleteIdx]
  exact ⟨by simp [h], h⟩

/-- C8: the sensitivity sweep covers every size n in [nmin, nmax] = [2, 50];
each variant's series has length nmax - nmin + 1 = 49 and its slot n - nmin
holds exactly 100 * (norm(variant) - norm(reference)) / norm(variant) in
Frobenius norms, on the symmetrised random draw of size n. -/
theorem C8_sweep (ev : EigF) (evec : EigVF) (draw : ℕ → Mat) (n : ℕ)
    (h1 : nmin ≤ n) (h2 : n ≤ nmax) :
    nmin = 2 ∧ nmax = 50 ∧
    (fpe_basic_array ev evec draw).length = nmax - nmin + 1 ∧
    (fpe_perf_array ev evec draw).length = nmax - nmin + 1 ∧
    (fpe_vect_array ev evec draw).length = nmax - nmin + 1 ∧
    (fpe_basic_array ev evec draw).getD (n - nmin) 0 =
      100 * (frobNorm n (eig_sq ev n (genH (draw n))) -
          frobNorm n (eig_sq_np evec n (genH (draw n)))) /
        frobNorm n (eig_sq ev n (genH (draw n))) ∧
    (fpe_perf_array ev evec draw).getD (n - nmin) 0 =
      100 * (frobNorm n (eig_sq_perf ev n (genH (draw n))) -
          frobNorm n (eig_sq_np evec n (genH (draw n)))) /
        frobNorm n (eig_sq_perf ev n (genH (draw n))) ∧
    (fpe_vect_array ev evec draw).getD (n - nmin) 0 =
      100 * (frobNorm n (eig_sq_vect ev n (genH (draw n))) -
          frobNorm n (eig_sq_np evec n (genH (draw n)))) /
        frobNorm n (eig_sq_vect ev n (genH (draw n))) := by
  have hm : n - nmin < nmax - nmin + 1 := by omega
  have hn' : n - nmin + nmin = n := by omega
  refine ⟨rfl, rfl, by simp [fpe_basic_array], by simp [fpe_perf_array],
    by simp [fpe_vect_array], ?_, ?_, ?_⟩ <;>
    simp [fpe_basic_array, fpe_perf_array, fpe_vect_array,
      List.getD_eq_getElem?_getD, List.getElem?_map, List.getElem?_range, hm, hn', fpe]

theorem C8_witness :
    nmin = 2 ∧ nmax = 50 ∧
    (fpe_basic_array ev0 evec0 draw0).length = nmax - nmin + 1 ∧
    (fpe_perf_array ev0 evec0 draw0).length = nmax - nmin + 1 ∧
    (fpe_vect_array ev0 evec0 draw0).length = nmax - nmin + 1 ∧
    (fpe_basic_array ev0 evec0 draw0).getD (2 - nmin) 0 =
      100 * (frobNorm 2 (eig_sq ev0 2 (genH (draw0 2))) -
          frobNorm 2 (eig_sq_np evec0 2 (genH (draw0 2)))) /
        frobNorm 2 (eig_sq ev0 2 (genH (draw0 2))) ∧
    (fpe_perf_array ev0 evec0 draw0).getD (2 - nmin) 0 =
      100 * (frobNorm 2 (eig_sq_perf ev0 2 (genH (draw0 2))) -
          frobNorm 2 (eig_sq_np evec0 2 (genH (draw0 2)))) /
        frobNorm 2 (eig_sq_perf ev0 2 (genH (draw0 2))) ∧
    (fpe_vect_array ev0 evec0 draw0).getD (2 - nmin) 0 =
      100 * (frobNorm 2 (eig_sq_vect ev0 2 (genH (draw0 2))) -
          frobNorm 2 (eig_sq_np evec0 2 (genH (draw0 2)))) /
        frobNorm 2 (eig_sq_vect ev0 2 (genH (draw0 2))) :=
  C8_sweep ev0 evec0 draw0 2 (by norm_num [nmin]) (by norm_num [nmin, nmax])

/-! Mathematics for the column-stochastic property (C4): given that the
external primitive returns genuine spectra — encoded as a strictly ascending
full spectrum, interlacing minor spectra, and the characteristic-polynomial
derivative identity relating the two — each column of the reconstruction sums
to exactly 1 and every entry is nonnegative. -/

lemma lam_mono_le (lam : ℕ → ℝ) (n : ℕ) (h : ∀ k, k + 1 < n → lam k < lam (k + 1)) :
    ∀ a b, a ≤ b → b < n → lam a ≤ lam b := by
  intro a b hab
  induction b, hab using Nat.le_induction with
  | base => intro _; exact le_refl _
  | succ b hab ih =>
    intro hbn
    exact le_trans (ih (by omega)) (le_of_lt (h b hbn))

lemma lam_mono_lt (lam : ℕ → ℝ) (n : ℕ) (h : ∀ k, k + 1 < n → lam k < lam (k + 1)) :
    ∀ a b, a < b → b < n → lam a < lam b := by
  intro a b hab hbn
  have h1 : lam a ≤ lam (b - 1) := lam_mono_le lam n h a (b - 1) (by omega) (by omega)
  have h2 : lam (b - 1) < lam b := by
    have hb : b - 1 + 1 = b := by omega
    have := h (b - 1) (by omega)
    rwa [hb] at this
  exact lt_of_le_of_lt h1 h2

/-- Finset version of the product rule for polynomial derivatives. -/
lemma derivative_finset_prod (s : Finset ℕ) (f : ℕ → Polynomial ℝ) :
    Polynomial.derivative (∏ i ∈ s, f i) =
      ∑ i ∈ s, (∏ j ∈ s.erase i, f j) * Polynomial.derivative (f i) := by
  induction s using Finset.induction_on with
  | empty => simp
  | @insert a s ha ih =>
    rw [Finset.prod_insert ha, Polynomial.derivative_mul, ih, Finset.sum_insert ha,
      Finset.erase_insert ha, Finset.mul_sum]
    congr 1
    · exact mul_comm _ _
    · refine Finset.sum_congr rfl (fun i hi => ?_)
      rw [Finset.erase_insert_of_ne (fun hai => ha (by rw [hai]; exact hi)),
        Finset.prod_insert (fun hmem => ha (Finset.mem_of_mem_erase hmem))]
      ring

/-- Sum over all minors of the interlacing numerators equals the common
denominator: evaluating the charpoly-derivative identity at `lam c`. -/
lemma formula_sum (lam : ℕ → ℝ) (mu : ℕ → ℕ → ℝ) (n c : ℕ) (hc : c < n)
    (hinj : ∀ a b, a < n → b < n → a ≠ b → lam a ≠ lam b)
    (hq : ∑ j ∈ Finset.range n, ∏ k ∈ Finset.range (n - 1),
            (Polynomial.X - Polynomial.C (mu j k)) =
          Polynomial.derivative (∏ k ∈ Finset.range n,
            (Polynomial.X - Polynomial.C (lam k)))) :
    ∑ j ∈ Finset.range n,
        (∏ k ∈ Finset.range (n - 1), (lam c - mu j k)) /
          (∏ k ∈ (Finset.range n).erase c, (lam c - lam k)) = 1 := by
  have hD : (∏ k ∈ (Finset.range n).erase c, (lam c - lam k)) ≠ 0 := by
    rw [Finset.prod_ne_zero_iff]
    intro k hk
    rw [Finset.mem_erase, Finset.mem_range] at hk
    exact sub_ne_zero.mpr (hinj c k hc hk.2 (Ne.symm hk.1))
  rw [← Finset.sum_div]
  have hnum : ∑ j ∈ Finset.range n, ∏ k ∈ Finset.range (n - 1), (lam c - mu j k) =
      ∏ k ∈ (Finset.range n).erase c, (lam c - lam k) := by
    have h1 : ∀ j, (∏ k ∈ Finset.range (n - 1), (lam c - mu j k)) =
        Polynomial.eval (lam c) (∏ k ∈ Finset.range (n - 1),
          (Polynomial.X - Polynomial.C (mu j k))) := by
      intro j
      rw [Polynomial.eval_prod]
      exact Finset.prod_congr rfl (fun k _ => by simp)
    have h2 : ∀ i ∈ Finset.range n, Polynomial.eval (lam c)
        ((∏ j ∈ (Finset.range n).erase i, (Polynomial.X - Polynomial.C (lam j))) *
          Polynomial.derivative (Polynomial.X - Polynomial.C (lam i))) =
        ∏ j ∈ (Finset.range n).erase i, (lam c - lam j) := by
      intro i _
      simp [Polynomial.eval_prod]
    calc ∑ j ∈ Finset.range n, ∏ k ∈ Finset.range (n - 1), (lam c - mu j k)
        = ∑ j ∈ Finset.range n, Polynomial.eval (lam c)
            (∏ k ∈ Finset.range (n - 1), (Polynomial.X - Polynomial.C (mu j k))) :=
          Finset.sum_congr rfl (fun j _ => h1 j)
      _ = Polynomial.eval (lam c) (∑ j ∈ Finset.range n,
            ∏ k ∈ Finset.range (n - 1), (Polynomial.X - Polynomial.C (mu j k))) :=
          (Polynomial.eval_finset_sum _ _ _).symm
      _ = Polynomial.eval (lam c) (Polynomial.derivative
            (∏ k ∈ Finset.range n, (Polynomial.X - Polynomial.C (lam k)))) := by rw [hq]
      _ = ∑ i ∈ Finset.range n, ∏ j ∈ (Finset.range n).erase i, (lam c - lam j) := by
          rw [derivative_finset_prod, Polynomial.eval_finset_sum]
          exact Finset.sum_congr rfl h2
      _ = ∏ j ∈ (Finset.range n).erase c, (lam c - lam j) := by
          refine Finset.sum_eq_single c ?_ ?_
          · intro b hb hbc
            exact Finset.prod_eq_zero
              (Finset.mem_erase.mpr ⟨Ne.symm hbc, Finset.mem_range.mpr hc⟩) (sub_self _)
          · intro hcon
            exact absurd (Finset.mem_range.mpr hc) hcon
  rw [hnum, div_self hD]

/-- Pull a global sign out of a product. -/
lemma prod_eq_neg_one_pow_card_mul (s : Finset ℕ) (f : ℕ → ℝ) :
    ∏ k ∈ s, f k = (-1) ^ s.card * ∏ k ∈ s, (- f k) := by
  have h1 : ∏ k ∈ s, (- f k) = (-1) ^ s.card * ∏ k ∈ s, f k := by
    rw [← Finset.prod_const, ← Finset.prod_mul_distrib]
    exact Finset.prod_congr rfl (fun k _ => by ring)
  rw [h1, ← mul_assoc, ← pow_add, Even.neg_one_pow ⟨s.card, rfl⟩, one_mul]

lemma filter_card_range (m c : ℕ) :
    ((Finset.range m).filter (fun k => ¬ k < c)).card = m - c := by
  have h : (Finset.range m).filter (fun k => ¬ k < c) = Finset.Ico c m := by
    ext x
    simp only [Finset.mem_Ico, Finset.mem_filter, Finset.mem_range]
    omega
  rw [h, Nat.card_Ico]

lemma filter_card_erase (n c : ℕ) (hc : c < n) :
    (((Finset.range n).erase c).filter (fun k => ¬ k < c)).card = n - 1 - c := by
  have h : ((Finset.range n).erase c).filter (fun k => ¬ k < c) = Finset.Ico (c + 1) n := by
    ext x
    simp only [Finset.mem_Ico, Finset.mem_filter, Finset.mem_erase, Finset.mem_range]
    omega
  rw [h, Nat.card_Ico]
  omega

/-- A common nonzero factor of numerator and denominator cancels. -/
lemma shift_sign_div (s P1 P2 Q1 Q2 : ℝ) (hs : s ≠ 0) :
    P1 * (s * P2) / (Q1 * (s * Q2)) = P1 * P2 / (Q1 * Q2) := by
  rw [show P1 * (s * P2) = s * (P1 * P2) by ring,
    show Q1 * (s * Q2) = s * (Q1 * Q2) by ring,
    mul_div_mul_left _ _ hs]

/-- With an ascending full spectrum and interlacing minor spectrum, the
interlacing ratio is nonnegative: numerator and denominator have the same
sign pattern (n-1-c negative factors each). -/
lemma formula_nonneg (lam mu : ℕ → ℝ) (n c : ℕ) (hc : c < n)
    (hmono : ∀ a b, a ≤ b → b < n → lam a ≤ lam b)
    (hint : ∀ k, k < n - 1 → lam k ≤ mu k ∧ mu k ≤ lam (k + 1)) :
    0 ≤ (∏ k ∈ Finset.range (n - 1), (lam c - mu k)) /
        (∏ k ∈ (Finset.range n).erase c, (lam c - lam k)) := by
  rw [← Finset.prod_filter_mul_prod_filter_not (Finset.range (n - 1)) (fun k => k < c),
    ← Finset.prod_filter_mul_prod_filter_not ((Finset.range n).erase c) (fun k => k < c),
    prod_eq_neg_one_pow_card_mul ((Finset.range (n - 1)).filter (fun k => ¬ k < c)),
    prod_eq_neg_one_pow_card_mul (((Finset.range n).erase c).filter (fun k => ¬ k < c)),
    filter_card_range (n - 1) c, filter_card_erase n c hc,
    shift_sign_div _ _ _ _ _ (pow_ne_zero (n - 1 - c) (by norm_num : (-1 : ℝ) ≠ 0))]
  refine div_nonneg (mul_nonneg ?_ ?_) (mul_nonneg ?_ ?_)
  · refine Finset.prod_nonneg (fun i hi => ?_)
    rw [Finset.mem_filter, Finset.mem_range] at hi
    have h1 : mu i ≤ lam (i + 1) := (hint i hi.1).2
    have h2 : lam (i + 1) ≤ lam c := hmono (i + 1) c (by omega) hc
    linarith
  · refine Finset.prod_nonneg (fun i hi => ?_)
    rw [Finset.mem_filter, Finset.mem_range] at hi
    have h1 : lam c ≤ lam i := hmono c i (by omega) (by omega)
    have h2 : lam i ≤ mu i := (hint i hi.1).1
    linarith
  · refine Finset.prod_nonneg (fun i hi => ?_)
    rw [Finset.mem_filter, Finset.mem_erase, Finset.mem_range] at hi
    have h1 : lam i ≤ lam c := hmono i c (by omega) hc
    linarith
  · refine Finset.prod_nonneg (fun i hi => ?_)
    rw [Finset.mem_filter, Finset.mem_erase, Finset.mem_range] at hi
    have h1 : lam c ≤ lam i := hmono c i (by omega) hi.1.2
    linarith

/-- C4 (amended): for every Hermitian H whose spectrum, as returned by the
eigenvalue primitive, is strictly ascending (all eigenvalues distinct), whose
minor spectra interlace it, and whose spectra satisfy the
characteristic-polynomial derivative identity (all three are true of exact
spectra of a Hermitian matrix), each column of every variant's result sums to
exactly 1 — hence within tolerance 1e-9 — and every entry is nonnegative. -/
theorem C4_column_stochastic (ev : EigF) (n : ℕ) (H : Mat)
    (hH : IsHermitianN n H) (hn : 2 ≤ n)
    (hasc : ∀ k, k + 1 < n → ev n H k < ev n H (k + 1))
    (hinter : ∀ j, j < n → ∀ k, k < n - 1 →
      ev n H k ≤ ev (n - 1) (minorM H j) k ∧ ev (n - 1) (minorM H j) k ≤ ev n H (k + 1))
    (hq : ∑ j ∈ Finset.range n, ∏ k ∈ Finset.range (n - 1),
            (Polynomial.X - Polynomial.C (ev (n - 1) (minorM H j) k)) =
          Polynomial.derivative (∏ k ∈ Finset.range n,
            (Polynomial.X - Polynomial.C (ev n H k))))
    (col : ℕ) (hcol : col < n) :
    (∑ r ∈ Finset.range n, eig_sq ev n H r col) = 1 ∧
    (∑ r ∈ Finset.range n, eig_sq_perf ev n H r col) = 1 ∧
    (∑ r ∈ Finset.range n, eig_sq_vect ev n H r col) = 1 ∧
    (∀ r, 0 ≤ eig_sq ev n H r col ∧ 0 ≤ eig_sq_perf ev n H r col ∧
      0 ≤ eig_sq_vect ev n H r col) := by
  have hinj : ∀ a b, a < n → b < n → a ≠ b → ev n H a ≠ ev n H b := by
    intro a b ha hb hab
    rcases Nat.lt_or_ge a b with h | h
    · exact ne_of_lt (lam_mono_lt (ev n H) n hasc a b h hb)
    · have hba : b < a := by omega
      exact (ne_of_lt (lam_mono_lt (ev n H) n hasc b a hba ha)).symm
  have hmono : ∀ a b, a ≤ b → b < n → ev n H a ≤ ev n H b :=
    lam_mono_le (ev n H) n hasc
  have hsum : ∑ r ∈ Finset.range n, specFormula ev n H r col = 1 := by
    have h := formula_sum (ev n H) (fun j k => ev (n - 1) (minorM H j) k)
      n col hcol hinj hq
    simpa [specFormula] using h
  have hpos : ∀ r, r < n → 0 ≤ specFormula ev n H r col := by
    intro r hr
    exact formula_nonneg (ev n H) (ev (n - 1) (minorM H r)) n col hcol hmono
      (fun k hk => hinter r hr k hk)
  refine ⟨?_, ?_, ?_, ?_⟩
  · rw [Finset.sum_congr rfl (fun r hr =>
      eig_sq_eq_formula ev n H r col (Finset.mem_range.mp hr) hcol)]
    exact hsum
  · rw [Finset.sum_congr rfl (fun r hr =>
      eig_sq_perf_eq_formula ev n H r col (Finset.mem_range.mp hr) hcol)]
    exact hsum
  · rw [Finset.sum_congr rfl (fun r hr =>
      eig_sq_vect_eq_formula ev n H r col (Finset.mem_range.mp hr) hcol)]
    exact hsum
  · intro r
    by_cases hr : r < n
    · rw [eig_sq_eq_formula ev n H r col hr hcol,
        eig_sq_perf_eq_formula ev n H r col hr hcol,
        eig_sq_vect_eq_formula ev n H r col hr hcol]
      exact ⟨hpos r hr, hpos r hr, hpos r hr⟩
    · have hcond : ¬ (r < n ∧ col < n) := fun hcon => hr hcon.1
      refine ⟨?_, ?_, ?_⟩ <;> simp [eig_sq, eig_sq_perf, eig_sq_vect, hcond]

/-- Eigenvalue oracle faithful to the 2×2 identity matrix and its minors:
`eigvalsh` returns the constant spectrum 1 on the identity and on [[1]]. -/
def evI : EigF := fun _ _ _ => 1

/-- The 2×2 identity matrix. -/
def I2 : Mat := fun r c => if r = c then 1 else 0

lemma I2_herm : IsHermitianN 2 I2 := by
  intro r c hr hc
  interval_cases r <;> interval_cases c <;> simp [I2]

/-- C4 counterexample: on the Hermitian matrix I₂, whose spectrum (1, 1) is
degenerate, the reconstruction divides 0 by 0 (Python: nan; exact embedding:
0) and column 0 sums to 0, not 1 within tolerance 1e-9; the claim as stated,
for every Hermitian H, is false. -/
theorem C4_counterexample :
    IsHermitianN 2 I2 ∧
    ¬ (|(∑ r ∈ Finset.range 2, eig_sq evI 2 I2 r 0) - 1| ≤ 1e-9) := by
  refine ⟨I2_herm, ?_⟩
  have h : ∑ r ∈ Finset.range 2, eig_sq evI 2 I2 r 0 = 0 := by
    norm_num [Finset.sum_range_succ, eig_sq, vij_sq, evI, Finset.prod_range_one]
  rw [h]
  norm_num

/-- The diagonal matrix diag(0, 1). -/
def HD : Mat := fun r c => if r = 1 ∧ c = 1 then 1 else 0

/-- Eigenvalue oracle faithful to diag(0, 1) and its minors: spectrum (0, 1)
for the 2×2 input, and the single diagonal entry for a 1×1 input. -/
def evD : EigF := fun m M k => if m = 2 then (if k = 0 then 0 else 1) else (M 0 0).re

lemma HD_herm : IsHermitianN 2 HD := by
  intro r c hr hc
  interval_cases r <;> interval_cases c <;> simp [HD]

theorem C4_witness :
    (∑ r ∈ Finset.range 2, eig_sq evD 2 HD r 0) = 1 ∧
    (∑ r ∈ Finset.range 2, eig_sq_perf evD 2 HD r 0) = 1 ∧
    (∑ r ∈ Finset.range 2, eig_sq_vect evD 2 HD r 0) = 1 ∧
    (∀ r, 0 ≤ eig_sq evD 2 HD r 0 ∧ 0 ≤ eig_sq_perf evD 2 HD r 0 ∧
      0 ≤ eig_sq_vect evD 2 HD r 0) :=
  C4_column_stochastic evD 2 HD HD_herm (by norm_num)
    (by
      intro k hk
      have hk0 : k = 0 := by omega
      subst hk0
      norm_num [evD])
    (by
      intro j hj k hk
      have hk0 : k = 0 := by omega
      subst hk0
      interval_cases j <;> norm_num [evD, minorM, HD])
    (by
      norm_num [Finset.sum_range_succ, Finset.prod_range_succ, Finset.prod_range_one,
        evD, minorM, HD]
      ring)
    0 (by norm_num)

end

end E2
